import Mathlib

/-!
Verification of `swisscom_ai/research_keyphrase/preprocessing/postagging.py`.

Strings are embedded as `List Char`.  External collaborators (the tagging
engines `tagger.pos`, `nlp`, `tagger.tag_sents`, the nltk sentence tokenizer
and punkt resources) are taken as function parameters or resource names, as
the spec treats them as black-box capabilities.
-/

/-- Python whitespace test used by `str.strip()` (ASCII whitespace). -/
def pyIsSpace (c : Char) : Bool :=
  c = ' ' ∨ c = '\t' ∨ c = '\n' ∨ c = '\r' ∨ c = '\x0b' ∨ c = '\x0c'

/-- Remove trailing whitespace, keeping the rest (right half of `str.strip()`). -/
def pyStripRight : List Char → List Char
  | [] => []
  | c :: cs =>
    let r := pyStripRight cs
    if r = [] ∧ pyIsSpace c then [] else c :: r

/-- Python `str.strip()`: drop leading and trailing whitespace. -/
def pyStrip (s : List Char) : List Char :=
  pyStripRight (s.dropWhile pyIsSpace)

/-- `leadsWith pat s` holds when `pat` occurs at the start of `s`. -/
def leadsWith : List Char → List Char → Bool
  | [], _ => true
  | _ :: _, [] => false
  | p :: ps, c :: cs => decide (p = c) && leadsWith ps cs

/-- Python `needle in hay` for strings: contiguous substring test. -/
def containsSub (needle : List Char) : List Char → Bool
  | [] => needle.isEmpty
  | c :: cs => leadsWith needle (c :: cs) || containsSub needle cs

/-- Loop state of `PosTaggingKonlpy.convert_dot` (postagging.py lines 200-214).
`cur = none` models `change_token = True` (a fresh token must be popped);
`cur = some w` models `change_token = False` with `pos_tag_word = w`. -/
structure DotState where
  queue : List (List Char × List Char)
  cur : Option (List Char × List Char)
  buf : List Char
  out : List Char
deriving DecidableEq

/-- The character walk of `convert_dot`: for each character, break if the
token queue is empty, pop a token when `change_token`, extend the pending
buffer, and on a stripped-buffer match emit the buffer plus, when the tag
contains the marker and `buffer[:-1] != '.'`, the synthetic delimiter ". ". -/
def dotWalk (marker : List Char) : List Char → DotState → DotState
  | [], s => s
  | _ :: _, ⟨[], cur, buf, out⟩ => ⟨[], cur, buf, out⟩
  | c :: cs, ⟨t :: q, cur, buf, out⟩ =>
    let w := cur.getD t
    let q' := if cur.isSome then t :: q else q
    let buf' := buf ++ [c]
    if pyStrip buf' = w.1 then
      dotWalk marker cs ⟨q', none, [],
        out ++ buf' ++
          (if containsSub marker w.2 ∧ ¬ buf'.dropLast = ['.'] then ['.', ' '] else [])⟩
    else
      dotWalk marker cs ⟨q', some w, buf', out⟩

/-- `PosTaggingKonlpy.convert_dot` (postagging.py lines 200-214).  `marker` is
`self.tag`; `tags` is the result of `self.tagger.pos(doc)` (external engine),
`doc` the raw text. -/
def convert_dot (marker : List Char) (tags : List (List Char × List Char))
    (doc : List Char) : List Char :=
  (dotWalk marker doc ⟨tags, none, [], []⟩).out

/-- Instrumented output of the `convert_dot` walk: a `real` segment is a
matched pending buffer copied from the input; `delim` is one inserted
synthetic delimiter ". ". -/
inductive OutSeg where
  | real (s : List Char) : OutSeg
  | delim : OutSeg
deriving DecidableEq

/-- Concatenate instrumented output into the actual output string. -/
def renderSegs : List OutSeg → List Char
  | [] => []
  | OutSeg.real s :: rest => s ++ renderSegs rest
  | OutSeg.delim :: rest => '.' :: ' ' :: renderSegs rest

/-- The characters of the instrumented output that come from the input
(i.e. the output with all inserted synthetic delimiters removed). -/
def realChars : List OutSeg → List Char
  | [] => []
  | OutSeg.real s :: rest => s ++ realChars rest
  | OutSeg.delim :: rest => realChars rest

/-- `DotState` with the output kept as instrumented segments. -/
structure DotStateI where
  queue : List (List Char × List Char)
  cur : Option (List Char × List Char)
  buf : List Char
  out : List OutSeg
deriving DecidableEq

/-- The `convert_dot` walk with instrumented output: identical to `dotWalk`
except that an emission records one `real` segment (the matched buffer) and,
when the delimiter condition fires, one `delim` segment. -/
def dotWalkI (marker : List Char) : List Char → DotStateI → DotStateI
  | [], s => s
  | _ :: _, ⟨[], cur, buf, out⟩ => ⟨[], cur, buf, out⟩
  | c :: cs, ⟨t :: q, cur, buf, out⟩ =>
    let w := cur.getD t
    let q' := if cur.isSome then t :: q else q
    let buf' := buf ++ [c]
    if pyStrip buf' = w.1 then
      dotWalkI marker cs ⟨q', none, [],
        out ++ OutSeg.real buf' ::
          (if containsSub marker w.2 ∧ ¬ buf'.dropLast = ['.'] then [OutSeg.delim] else [])⟩
    else
      dotWalkI marker cs ⟨q', some w, buf', out⟩

/-- `re.sub('[ ]+', ' ', text)`: collapse each run of space characters to a
single space (postagging.py line 180; only the space character, not tabs). -/
def collapseSpaces : List Char → List Char
  | [] => []
  | [c] => [c]
  | a :: b :: rest =>
    if a = ' ' ∧ b = ' ' then collapseSpaces (b :: rest)
    else a :: collapseSpaces (b :: rest)

/-- `PosTaggingSpacy.pos_tag_raw_text` (postagging.py lines 172-184),
`as_tuple_list = True` branch.  `nlp` is the external spacy pipeline, mapped
directly to the sentence/token structure it yields; the text is whitespace
normalized (`re.sub('[ ]+', ' ', text).strip()`) before the engine runs. -/
def spacy_pos_tag_raw_text (nlp : List Char → List (List (List Char × List Char)))
    (text : List Char) : List (List (List Char × List Char)) :=
  nlp (pyStrip (collapseSpaces text))

/-- `PosTaggingStanford.pos_tag_raw_text` (postagging.py lines 146-154),
`as_tuple_list = True` branch: `tagger.tag_sents([sent_tokenizer.sentences_from_text(text)])`
with both engine functions external.  The raw `text` is passed through
unchanged — no whitespace normalization happens on this path. -/
def stanford_pos_tag_raw_text (sentencesFromText : List Char → List (List Char))
    (tagSents : List (List (List Char)) → List (List (List Char × List Char)))
    (text : List Char) : List (List (List Char × List Char)) :=
  tagSents [sentencesFromText text]

/-- Python `sep.join(parts)`. -/
def joinSep (sep : List Char) : List (List Char) → List Char
  | [] => []
  | [p] => p
  | p :: q :: ps => p ++ sep ++ joinSep sep (q :: ps)

/-- `nltk.tag.util.tuple2str` with a non-None tag: `word + sep + tag`
(the nltk helper also asserts that `sep` does not occur in the tag). -/
def tuple2str (sep : List Char) (t : List Char × List Char) : List Char :=
  t.1 ++ sep ++ t.2

/-- The flat string encoding of `PosTaggingStanford.pos_tag_raw_text`
(postagging.py lines 155-156): tokens rendered by `tuple2str` with the
configured separator, space-joined per sentence, sentences joined by the
sentinel `[ENDSENT]`. -/
def flattenDoc (sep : List Char) (doc : List (List (List Char × List Char))) : List Char :=
  joinSep "[ENDSENT]".data
    (doc.map (fun sent => joinSep [' '] (sent.map (tuple2str sep))))

/-- The flat string encoding of `PosTaggingSpacy.pos_tag_raw_text`
(postagging.py line 185): `'|'.join([token.text, token.tag_])` — the
separator `'|'` is hardcoded, the spacy class has no separator attribute. -/
def spacy_flat (doc : List (List (List Char × List Char))) : List Char :=
  joinSep "[ENDSENT]".data
    (doc.map (fun sent => joinSep [' '] (sent.map (fun t => t.1 ++ "|".data ++ t.2))))

/-- Split at the first occurrence of `sep`: `some (before, after)` when `sep`
occurs in `s`, `none` otherwise (leftmost match, as in Python `str.split`). -/
def splitFirstSub (sep : List Char) : List Char → Option (List Char × List Char)
  | [] => if leadsWith sep [] then some ([], []) else none
  | c :: cs =>
    if leadsWith sep (c :: cs) then some ([], (c :: cs).drop sep.length)
    else (splitFirstSub sep cs).map (fun p => (c :: p.1, p.2))

/-- Fueled repeated split on `sep` (each step removes one leftmost
occurrence, like Python `str.split(sep)`). -/
def splitOnSubF (sep : List Char) : Nat → List Char → List (List Char)
  | 0, s => [s]
  | fuel + 1, s =>
    match splitFirstSub sep s with
    | none => [s]
    | some pp => pp.1 :: splitOnSubF sep fuel pp.2

/-- Python `s.split(sep)` for a nonempty `sep`: `s.length + 1` fuel is enough
because every removed occurrence consumes at least one character. -/
def splitOnSub (sep s : List Char) : List (List Char) :=
  splitOnSubF sep (s.length + 1) s

/-- Modelled from the spec: the repository contains no parser for the flat
encoding; §4.4 requires that "re-splitting the flat form on the sentinel and
separator" recover the tokens.  A single rendered token is split at the first
occurrence of the separator into (text, tag); with no separator present the
whole string is the text. -/
def parseToken (sep : List Char) (s : List Char) : List Char × List Char :=
  match splitFirstSub sep s with
  | none => (s, [])
  | some pp => pp

/-- Modelled from the spec: the repository contains no parser for the flat
encoding; §4.4 — split the flat string on the sentinel `[ENDSENT]` into
sentences, split each sentence on spaces into rendered tokens, split each
rendered token on the separator. -/
def parseFlat (sep : List Char) (s : List Char) : List (List (List Char × List Char)) :=
  (splitOnSub "[ENDSENT]".data s).map
    (fun sent => (splitOnSub [' '] sent).map (parseToken sep))

/-- Python attribute lookup on an instance modelled as an association list of
(attribute name, value); a missing name gives `AttributeError`, modelled as
`Except.error` carrying the missing name. -/
def getattrStr (attrs : List (List Char × List Char)) (name : List Char) :
    Except (List Char) (List Char) :=
  match attrs.find? (fun e => decide (e.1 = name)) with
  | some e => Except.ok e.2
  | none => Except.error name

/-- The string-keyed attributes set by `PosTaggingKonlpy.__init__`
(postagging.py lines 188-198): `tagger`, `tag`, `lang`, `separator` — and
nothing named `seperator`. -/
def konlpyAttrs (taggerv tagv langv separatorv : List Char) :
    List (List Char × List Char) :=
  [("tagger".data, taggerv), ("tag".data, tagv),
   ("lang".data, langv), ("separator".data, separatorv)]

/-- Evaluate a Python list comprehension left to right, where each element
may raise: the first raise aborts the whole comprehension. -/
def exceptMapList {ε α β : Type} (f : α → Except ε β) : List α → Except ε (List β)
  | [] => Except.ok []
  | a :: as =>
    match f a with
    | Except.error e => Except.error e
    | Except.ok b =>
      match exceptMapList f as with
      | Except.error e => Except.error e
      | Except.ok bs => Except.ok (b :: bs)

/-- The `as_tuple_list = False` branch of `PosTaggingKonlpy.pos_tag_raw_text`
(postagging.py lines 227-228): per token it evaluates
`tuple2str(tagged_token, self.seperator)`, reading the attribute `seperator`
on the instance; the joins mirror the Stanford flat encoding. -/
def konlpy_flat (attrs : List (List Char × List Char))
    (tagged : List (List (List Char × List Char))) : Except (List Char) (List Char) :=
  match exceptMapList (fun sent =>
      match exceptMapList (fun t =>
          match getattrStr attrs "seperator".data with
          | Except.error e => Except.error e
          | Except.ok sep => Except.ok (tuple2str sep t)) sent with
      | Except.error e => Except.error e
      | Except.ok toks => Except.ok (joinSep [' '] toks)) tagged with
  | Except.error e => Except.error e
  | Except.ok sents => Except.ok (joinSep "[ENDSENT]".data sents)

/-- `PosTaggingKonlpy.sent_tokenize` (postagging.py lines 216-220):
run `convert_dot`, sentence-tokenize the synthesized text with the external
nltk `sent_tokenize` (`st`), and drop sentences equal to `"."` exactly. -/
def konlpy_sent_tokenize (taggerPos : List Char → List (List Char × List Char))
    (st : List Char → List (List Char)) (marker : List Char) (doc : List Char) :
    List (List Char) :=
  (st (convert_dot marker (taggerPos doc) doc)).filter (fun x => decide (¬ x = ".".data))

/-- `PosTaggingKonlpy.pos_tag_raw_text` (postagging.py lines 222-226),
`as_tuple_list = True` branch: re-tag each surviving sentence with the
external engine. -/
def konlpy_pos_tag_raw_text_structured
    (taggerPos : List Char → List (List Char × List Char))
    (st : List Char → List (List Char)) (marker : List Char) (text : List Char) :
    List (List (List Char × List Char)) :=
  (konlpy_sent_tokenize taggerPos st marker text).map taggerPos

/-- `PosTaggingKonlpy.pos_tag_raw_text` (postagging.py lines 222-228),
`as_tuple_list = False` branch. -/
def konlpy_pos_tag_raw_text_flat
    (taggerPos : List Char → List (List Char × List Char))
    (st : List Char → List (List Char)) (marker : List Char)
    (attrs : List (List Char × List Char)) (text : List Char) :
    Except (List Char) (List Char) :=
  konlpy_flat attrs (konlpy_pos_tag_raw_text_structured taggerPos st marker text)

/-- The filesystem, modelled as an association list from path to file
content; newer entries are prepended and shadow older ones. -/
def isfile (fs : List (List Char × List Char)) (p : List Char) : Bool :=
  fs.any (fun e => decide (e.1 = p))

/-- `read_file` from the fileIO util: content of the named file. -/
def read_file (fs : List (List Char × List Char)) (p : List Char) : List Char :=
  ((fs.find? (fun e => decide (e.1 = p))).map (fun e => e.2)).getD []

/-- `write_string` from the fileIO util: create or overwrite the named file. -/
def write_string (fs : List (List Char × List Char)) (p content : List Char) :
    List (List Char × List Char) :=
  (p, content) :: fs

/-- The warning text of `PosTagging.pos_tag_and_write_corpora` (line 109):
`'file ' + output_file_path + 'does not exists'` (it names the output path). -/
def warnMsg (p suffix : List Char) : List Char :=
  "file ".data ++ (p ++ suffix) ++ "does not exists".data

/-- `PosTagging.pos_tag_and_write_corpora` (postagging.py lines 90-109):
walk the path list in order; an existing path is read, tagged with the
instance's flat tagging (`pos_tag_file` with an output path, i.e.
`pos_tag_raw_text(..., as_tuple_list=False)` abstracted as `tagFlat`) and the
result written to `path + suffix`; a missing path produces a warning and is
skipped.  Returns the final filesystem and the warnings in emission order. -/
def pos_tag_and_write_corpora (tagFlat : List Char → List Char) (suffix : List Char) :
    List (List Char) → List (List Char × List Char) →
    List (List Char × List Char) × List (List Char)
  | [], fs => (fs, [])
  | p :: ps, fs =>
    if isfile fs p then
      pos_tag_and_write_corpora tagFlat suffix ps
        (write_string fs (p ++ suffix) (tagFlat (read_file fs p)))
    else
      let r := pos_tag_and_write_corpora tagFlat suffix ps fs
      (r.1, warnMsg p suffix :: r.2)

/-- The tagging state selected by `PosTaggingStanford.__init__` for a
supported language: model path, punkt sentence tokenizer resource, tagger
class, and the stored separator.  External objects (`nltk.data.load`, the
custom Stanford tagger classes) are represented by their resource names. -/
structure StanfordConfig where
  model_path : List Char
  sent_tokenizer : List Char
  tagger : List Char
  jar : List Char
  separator : List Char
deriving DecidableEq

/-- `PosTaggingStanford.__init__` (postagging.py lines 121-144): languages
`en`, `de`, `fr` select the matching model, tokenizer and tagger; any other
language raises `ValueError('Language ' + lang + 'not handled')` before any
tagging state is created.  `os.path.join` is modelled as `dir ++ "/" ++ name`. -/
def stanford_init (jar_path model_path_directory separator lang : List Char) :
    Except (List Char) StanfordConfig :=
  if lang = "en".data then
    Except.ok ⟨model_path_directory ++ "/".data ++ "english-left3words-distsim.tagger".data,
      "tokenizers/punkt/english.pickle".data, "EnglishStanfordPOSTagger".data, jar_path, separator⟩
  else if lang = "de".data then
    Except.ok ⟨model_path_directory ++ "/".data ++ "german-hgc.tagger".data,
      "tokenizers/punkt/german.pickle".data, "GermanStanfordPOSTagger".data, jar_path, separator⟩
  else if lang = "fr".data then
    Except.ok ⟨model_path_directory ++ "/".data ++ "french.tagger".data,
      "tokenizers/punkt/french.pickle".data, "FrenchStanfordPOSTagger".data, jar_path, separator⟩
  else
    Except.error ("Language ".data ++ lang ++ "not handled".data)

/-- No two adjacent space characters (the normal form of `collapseSpaces`). -/
def noDoubleSpace : List Char → Bool
  | [] => true
  | [_] => true
  | a :: b :: rest => decide (¬ (a = ' ' ∧ b = ' ')) && noDoubleSpace (b :: rest)

/-! ## Theorems -/


/-- The walk is inert once the token queue is exhausted. -/
theorem dotWalk_queue_nil (marker : List Char) (cs : List Char) (s : DotState)
    (h : s.queue = []) : dotWalk marker cs s = s := by
  cases cs with
  | nil => rfl
  | cons c cs =>
    obtain ⟨queue, cur, buf, out⟩ := s
    simp only at h
    subst h
    rfl

/-- The walk processes the document left to right, one character at a time. -/
theorem dotWalk_append (marker : List Char) (xs ys : List Char) (s : DotState) :
    dotWalk marker (xs ++ ys) s = dotWalk marker ys (dotWalk marker xs s) := by
  induction xs generalizing s with
  | nil => rfl
  | cons c cs ih =>
    obtain ⟨queue, cur, buf, out⟩ := s
    cases queue with
    | nil =>
      rw [List.cons_append]
      rw [show dotWalk marker (c :: (cs ++ ys)) ⟨[], cur, buf, out⟩ = ⟨[], cur, buf, out⟩ from rfl]
      rw [show dotWalk marker (c :: cs) ⟨[], cur, buf, out⟩ = ⟨[], cur, buf, out⟩ from rfl]
      exact (dotWalk_queue_nil marker ys _ rfl).symm
    | cons t q =>
      rw [List.cons_append]
      simp only [dotWalk]
      split <;> exact ih _

/-- C3: in `convert_dot`, if the token/tag queue is exhausted while walking
`doc`, the walk stops early: any remaining characters (`extra`) are not
emitted, so the output on `doc ++ extra` equals the output on `doc` alone. -/
theorem convert_dot_stops_on_queue_exhaustion (marker : List Char)
    (tags : List (List Char × List Char)) (doc extra : List Char)
    (h : (dotWalk marker doc ⟨tags, none, [], []⟩).queue = []) :
    convert_dot marker tags (doc ++ extra) = convert_dot marker tags doc := by
  unfold convert_dot
  rw [dotWalk_append, dotWalk_queue_nil marker extra _ h]

theorem convert_dot_stops_on_queue_exhaustion_witness :
    convert_dot "X".data [("a".data, "Y".data)] ("a".data ++ "bc".data) =
      convert_dot "X".data [("a".data, "Y".data)] "a".data :=
  convert_dot_stops_on_queue_exhaustion "X".data [("a".data, "Y".data)]
    "a".data "bc".data (by decide)

/-- C1 (failing input): with marker "EF", tokens `[("a","EF"), (".","EF")]` and
text `"a."`, the matched buffer for the second token is exactly `"."`, its tag
contains the marker, and `convert_dot` nevertheless appends the synthetic
delimiter, producing `"a. .. "`: the guard `continuos_word[:-1] != '.'`
compares the buffer *minus its last character* (here the empty string) with
`"."`, so a buffer that is exactly one dot still triggers the delimiter. -/
theorem convert_dot_single_dot_appends_delim :
    convert_dot "EF".data [("a".data, "EF".data), (".".data, "EF".data)]
      "a.".data = "a. .. ".data := by decide

theorem renderSegs_append (a b : List OutSeg) :
    renderSegs (a ++ b) = renderSegs a ++ renderSegs b := by
  induction a with
  | nil => rfl
  | cons x xs ih => cases x <;> simp [renderSegs, ih]

theorem realChars_append (a b : List OutSeg) :
    realChars (a ++ b) = realChars a ++ realChars b := by
  induction a with
  | nil => rfl
  | cons x xs ih => cases x <;> simp [realChars, ih]

/-- Rendering one instrumented emission: the matched buffer followed by the
delimiter characters exactly when the delimiter condition fired. -/
theorem renderSegs_emit (out : List OutSeg) (b : List Char) (P : Prop) [Decidable P] :
    renderSegs (out ++ OutSeg.real b :: (if P then [OutSeg.delim] else [])) =
      renderSegs out ++ b ++ (if P then ['.', ' '] else []) := by
  rw [renderSegs_append]
  by_cases h : P <;> simp [renderSegs, h]

/-- The real characters of one instrumented emission: just the matched buffer. -/
theorem realChars_emit (out : List OutSeg) (b : List Char) (P : Prop) [Decidable P] :
    realChars (out ++ OutSeg.real b :: (if P then [OutSeg.delim] else [])) =
      realChars out ++ b := by
  rw [realChars_append]
  by_cases h : P <;> simp [realChars, h]

/-- The instrumented walk renders to exactly the source walk's output, and
keeps the same queue, current token and pending buffer. -/
theorem dotWalk_agree (marker : List Char) (cs : List Char) (t : DotStateI) :
    dotWalk marker cs ⟨t.queue, t.cur, t.buf, renderSegs t.out⟩ =
      ⟨(dotWalkI marker cs t).queue, (dotWalkI marker cs t).cur,
        (dotWalkI marker cs t).buf, renderSegs (dotWalkI marker cs t).out⟩ := by
  induction cs generalizing t with
  | nil => rfl
  | cons c cs ih =>
    obtain ⟨queue, cur, buf, out⟩ := t
    cases queue with
    | nil => rfl
    | cons tk q =>
      simp only [dotWalk, dotWalkI]
      split
      · have h1 := ih ⟨(if cur.isSome then tk :: q else q), none, [],
          out ++ OutSeg.real (buf ++ [c]) ::
            (if containsSub marker (cur.getD tk).2 ∧ ¬ (buf ++ [c]).dropLast = ['.']
              then [OutSeg.delim] else [])⟩
        dsimp only at h1
        rw [renderSegs_emit] at h1
        exact h1
      · exact ih ⟨(if cur.isSome then tk :: q else q), some (cur.getD tk), buf ++ [c], out⟩

/-- Walking `cs` splits it into a consumed part and an untouched remainder:
the real (non-delimiter) characters emitted so far, followed by the pending
buffer, grow by exactly the consumed characters, in order. -/
theorem dotWalkI_consumed (marker : List Char) (cs : List Char) (t : DotStateI) :
    ∃ used rest, cs = used ++ rest ∧
      realChars (dotWalkI marker cs t).out ++ (dotWalkI marker cs t).buf =
        realChars t.out ++ t.buf ++ used := by
  induction cs generalizing t with
  | nil => exact ⟨[], [], rfl, by simp [dotWalkI]⟩
  | cons c cs ih =>
    obtain ⟨queue, cur, buf, out⟩ := t
    cases queue with
    | nil => exact ⟨[], c :: cs, rfl, by simp [dotWalkI]⟩
    | cons tk q =>
      simp only [dotWalkI]
      split
      · obtain ⟨used, rest, hsplit, heq⟩ := ih ⟨(if cur.isSome then tk :: q else q), none, [],
          out ++ OutSeg.real (buf ++ [c]) ::
            (if containsSub marker (cur.getD tk).2 ∧ ¬ (buf ++ [c]).dropLast = ['.']
              then [OutSeg.delim] else [])⟩
        refine ⟨c :: used, rest, by simp [hsplit], ?_⟩
        dsimp only at heq
        rw [realChars_emit] at heq
        rw [heq]
        simp
      · obtain ⟨used, rest, hsplit, heq⟩ :=
          ih ⟨(if cur.isSome then tk :: q else q), some (cur.getD tk), buf ++ [c], out⟩
        refine ⟨c :: used, rest, by simp [hsplit], ?_⟩
        dsimp only at heq
        rw [heq]
        simp

/-- C2 (counterexample): the claim fails — `convert_dot` can drop characters
belonging to real tokens.  With tag queue `[("ab", "Y")]` and text `"ab"`,
the queue is emptied by the pop at character `'a'`, the walk breaks at
character `'b'`, and the output is empty: no removal of synthetic delimiters
from `""` can reproduce the input `"ab"`. -/
theorem convert_dot_drops_characters_cex :
    convert_dot "X".data [("ab".data, "Y".data)] "ab".data = [] ∧
      "ab".data ≠ ([] : List Char) := by decide

/-- C2 (amended): the output of `convert_dot` decomposes into emitted real
segments and inserted synthetic delimiters, and the real characters (the
output with all inserted delimiters removed) form a leading segment of the input
document: no character belonging to a real token is reordered or dropped
from the middle, but a suffix of the input may be dropped (queue exhaustion
or a final buffer that never matches). -/
theorem convert_dot_output_front (marker : List Char)
    (tags : List (List Char × List Char)) (doc : List Char) :
    ∃ segs : List OutSeg, convert_dot marker tags doc = renderSegs segs ∧
      ∃ rest, realChars segs ++ rest = doc := by
  refine ⟨(dotWalkI marker doc ⟨tags, none, [], []⟩).out, ?_, ?_⟩
  · have h := dotWalk_agree marker doc ⟨tags, none, [], []⟩
    dsimp only at h
    unfold convert_dot
    rw [show renderSegs [] = [] from rfl] at h
    rw [h]
  · obtain ⟨used, rest, hsplit, heq⟩ := dotWalkI_consumed marker doc ⟨tags, none, [], []⟩
    dsimp only at heq
    rw [show realChars [] = [] from rfl] at heq
    simp only [List.nil_append, List.append_nil] at heq
    refine ⟨(dotWalkI marker doc ⟨tags, none, [], []⟩).buf ++ rest, ?_⟩
    rw [← List.append_assoc, heq, ← hsplit]

theorem noDoubleSpace_tail (x : Char) (l : List Char)
    (h : noDoubleSpace (x :: l) = true) : noDoubleSpace l = true := by
  cases l with
  | nil => rfl
  | cons y ys =>
    simp only [noDoubleSpace, Bool.and_eq_true] at h
    exact h.2

theorem noDoubleSpace_of_front (a b : List Char)
    (h : noDoubleSpace (a ++ b) = true) : noDoubleSpace b = true := by
  induction a with
  | nil => exact h
  | cons x xs ih => exact ih (noDoubleSpace_tail x (xs ++ b) h)

theorem noDoubleSpace_of_back (a : List Char) (b : List Char)
    (h : noDoubleSpace (a ++ b) = true) : noDoubleSpace a = true := by
  induction a with
  | nil => rfl
  | cons x xs ih =>
    cases xs with
    | nil => rfl
    | cons y ys =>
      simp only [List.cons_append, noDoubleSpace, Bool.and_eq_true] at h ⊢
      exact ⟨h.1, by
        have := ih (by simpa using h.2)
        simpa using this⟩

theorem collapseSpaces_head (b : Char) (rest : List Char) :
    ∃ tl, collapseSpaces (b :: rest) = b :: tl := by
  induction rest generalizing b with
  | nil => exact ⟨[], rfl⟩
  | cons c rs ih =>
    by_cases h : b = ' ' ∧ c = ' '
    · obtain ⟨tl, htl⟩ := ih c
      refine ⟨tl, ?_⟩
      rw [show collapseSpaces (b :: c :: rs) = collapseSpaces (c :: rs) from by
        simp [collapseSpaces, h], htl, h.1, h.2]
    · exact ⟨collapseSpaces (c :: rs), by simp [collapseSpaces, h]⟩

theorem noDoubleSpace_collapseSpaces : ∀ t, noDoubleSpace (collapseSpaces t) = true
  | [] => rfl
  | [_] => rfl
  | a :: b :: rest => by
    by_cases h : a = ' ' ∧ b = ' '
    · rw [show collapseSpaces (a :: b :: rest) = collapseSpaces (b :: rest) from by
        simp [collapseSpaces, h]]
      exact noDoubleSpace_collapseSpaces (b :: rest)
    · rw [show collapseSpaces (a :: b :: rest) = a :: collapseSpaces (b :: rest) from by
        simp [collapseSpaces, h]]
      obtain ⟨tl, htl⟩ := collapseSpaces_head b rest
      have hnd := noDoubleSpace_collapseSpaces (b :: rest)
      rw [htl] at hnd ⊢
      simp only [noDoubleSpace, Bool.and_eq_true, decide_eq_true_eq]
      exact ⟨h, hnd⟩

theorem collapseSpaces_of_noDoubleSpace : ∀ t, noDoubleSpace t = true → collapseSpaces t = t
  | [], _ => rfl
  | [_], _ => rfl
  | a :: b :: rest, h => by
    simp only [noDoubleSpace, Bool.and_eq_true, decide_eq_true_eq] at h
    rw [show collapseSpaces (a :: b :: rest) = a :: collapseSpaces (b :: rest) from by
      simp [collapseSpaces, h.1]]
    rw [collapseSpaces_of_noDoubleSpace (b :: rest) h.2]

theorem pyStripRight_front : ∀ t : List Char, ∃ r, pyStripRight t ++ r = t
  | [] => ⟨[], rfl⟩
  | c :: cs => by
    obtain ⟨r, hr⟩ := pyStripRight_front cs
    by_cases h : pyStripRight cs = [] ∧ pyIsSpace c
    · exact ⟨c :: cs, by simp [pyStripRight, h]⟩
    · refine ⟨r, ?_⟩
      rw [show pyStripRight (c :: cs) = c :: pyStripRight cs from by simp [pyStripRight, h]]
      rw [List.cons_append, hr]

theorem pyStripRight_idem : ∀ t : List Char, pyStripRight (pyStripRight t) = pyStripRight t
  | [] => rfl
  | c :: cs => by
    by_cases h : pyStripRight cs = [] ∧ pyIsSpace c
    · rw [show pyStripRight (c :: cs) = [] from by simp [pyStripRight, h]]
      rfl
    · rw [show pyStripRight (c :: cs) = c :: pyStripRight cs from by simp [pyStripRight, h]]
      rw [show pyStripRight (c :: pyStripRight cs) =
          if pyStripRight (pyStripRight cs) = [] ∧ pyIsSpace c then []
          else c :: pyStripRight (pyStripRight cs) from rfl]
      rw [pyStripRight_idem cs]
      simp [h]

theorem dropWhile_head_false (p : Char → Bool) :
    ∀ (l : List Char) (x : Char) (r : List Char), l.dropWhile p = x :: r → p x = false := by
  intro l
  induction l with
  | nil => intro x r h; cases h
  | cons a as ih =>
    intro x r h
    rw [List.dropWhile_cons] at h
    by_cases ha : p a
    · rw [if_pos ha] at h
      exact ih x r h
    · rw [if_neg ha] at h
      cases h
      simpa using ha

theorem pyStrip_idem (s : List Char) : pyStrip (pyStrip s) = pyStrip s := by
  unfold pyStrip
  have hdrop : (pyStripRight (s.dropWhile pyIsSpace)).dropWhile pyIsSpace =
      pyStripRight (s.dropWhile pyIsSpace) := by
    cases hu : s.dropWhile pyIsSpace with
    | nil => rw [show pyStripRight [] = [] from rfl]; rfl
    | cons x l =>
      have hx : pyIsSpace x = false := dropWhile_head_false pyIsSpace s x l hu
      by_cases h : pyStripRight l = [] ∧ pyIsSpace x
      · rw [show pyStripRight (x :: l) = [] from by simp [pyStripRight, h]]
        rfl
      · rw [show pyStripRight (x :: l) = x :: pyStripRight l from by simp [pyStripRight, h]]
        rw [List.dropWhile_cons, if_neg (by simp [hx])]
  rw [hdrop, pyStripRight_idem]

/-- Whitespace normalization `re.sub('[ ]+', ' ', text).strip()` is
idempotent: applying it to an already-normalized text changes nothing. -/
theorem normalizeWs_idem (t : List Char) :
    pyStrip (collapseSpaces (pyStrip (collapseSpaces t))) = pyStrip (collapseSpaces t) := by
  have hnd : noDoubleSpace (pyStrip (collapseSpaces t)) = true := by
    have h1 := noDoubleSpace_collapseSpaces t
    have h2 : noDoubleSpace ((collapseSpaces t).dropWhile pyIsSpace) = true := by
      have := List.takeWhile_append_dropWhile pyIsSpace (collapseSpaces t)
      exact noDoubleSpace_of_front _ _ (by rw [this]; exact h1)
    obtain ⟨r, hr⟩ := pyStripRight_front ((collapseSpaces t).dropWhile pyIsSpace)
    refine noDoubleSpace_of_back _ r ?_
    unfold pyStrip
    rw [hr]
    exact h2
  rw [collapseSpaces_of_noDoubleSpace _ hnd, pyStrip_idem]

/-- C4 (counterexample): the claim fails for the Stanford backend — its
`pos_tag_raw_text` passes the raw text to the engine without whitespace
normalization, so a backend can observe `"a  b   c"` itself rather than
`"a b c"` (while `"a b c"` is indeed the normalized form of `"a  b   c"`). -/
theorem stanford_not_normalized_cex :
    stanford_pos_tag_raw_text (fun t => [t])
        (fun ss => ss.map (fun grp => grp.map (fun s => (s, ([] : List Char)))))
        "a  b   c".data ≠
      stanford_pos_tag_raw_text (fun t => [t])
        (fun ss => ss.map (fun grp => grp.map (fun s => (s, ([] : List Char)))))
        "a b c".data ∧
      pyStrip (collapseSpaces "a  b   c".data) = "a b c".data := by decide

/-- C4 (amended): only the spacy backend normalizes whitespace before
tagging: `PosTaggingSpacy.pos_tag_raw_text` collapses space runs and trims
before invoking the engine, and — because normalization is idempotent —
tagging a text and tagging its normalized form give the same result for this
backend.  The Stanford backend invokes its engine on the unnormalized text. -/
theorem spacy_whitespace_normalization
    (nlp : List Char → List (List (List Char × List Char))) (text : List Char) :
    spacy_pos_tag_raw_text nlp text = nlp (pyStrip (collapseSpaces text)) ∧
      spacy_pos_tag_raw_text nlp (pyStrip (collapseSpaces text)) =
        spacy_pos_tag_raw_text nlp text := by
  refine ⟨rfl, ?_⟩
  unfold spacy_pos_tag_raw_text
  rw [normalizeWs_idem]

/-- C7 (counterexample): the claim fails on both parts.  The sentence filter
of `PosTaggingKonlpy.sent_tokenize` removes only sentences *exactly* equal to
`"."`: a sentence `". "` (the injected delimiter itself, whose trimmed content
is the delimiter alone) survives the filter, and when the per-sentence tagger
returns no tokens for it, the returned document contains a sentence with zero
tokens. -/
theorem sent_filter_trimmed_cex :
    konlpy_sent_tokenize (fun _ => []) (fun _ => [". ".data]) [] [] = [". ".data] ∧
      konlpy_pos_tag_raw_text_structured (fun _ => []) (fun _ => [". ".data]) [] [] =
        [[]] := by decide

/-- C7 (amended): after boundary reconstruction, every sentence exactly equal
to the one-character string `"."` is discarded from the sentence list — the
filter `x != '.'` guarantees `"."` never occurs among the returned sentences
(sentences that merely trim to `"."`, such as `". "`, are kept, and a
zero-token sentence can still occur when the engine returns no tokens). -/
theorem sent_tokenize_no_lone_dot (taggerPos : List Char → List (List Char × List Char))
    (st : List Char → List (List Char)) (marker : List Char) (doc : List Char) :
    ".".data ∉ konlpy_sent_tokenize taggerPos st marker doc := by
  intro hmem
  unfold konlpy_sent_tokenize at hmem
  have := List.of_mem_filter hmem
  simp at this

/-- C9: constructing a Stanford tagger with a language other than `en`, `de`,
`fr` yields the `ValueError` immediately, with no tagging state created; each
supported language selects its matching model, punkt tokenizer and tagger
class (and stores the separator), so construction does not fail for that
reason. -/
theorem stanford_init_language_check (jar_path model_path_directory separator lang : List Char)
    (h : ¬ (lang = "en".data ∨ lang = "de".data ∨ lang = "fr".data)) :
    stanford_init jar_path model_path_directory separator lang =
        Except.error ("Language ".data ++ lang ++ "not handled".data) ∧
      stanford_init jar_path model_path_directory separator "en".data =
        Except.ok ⟨model_path_directory ++ "/".data ++ "english-left3words-distsim.tagger".data,
          "tokenizers/punkt/english.pickle".data, "EnglishStanfordPOSTagger".data,
          jar_path, separator⟩ ∧
      stanford_init jar_path model_path_directory separator "de".data =
        Except.ok ⟨model_path_directory ++ "/".data ++ "german-hgc.tagger".data,
          "tokenizers/punkt/german.pickle".data, "GermanStanfordPOSTagger".data,
          jar_path, separator⟩ ∧
      stanford_init jar_path model_path_directory separator "fr".data =
        Except.ok ⟨model_path_directory ++ "/".data ++ "french.tagger".data,
          "tokenizers/punkt/french.pickle".data, "FrenchStanfordPOSTagger".data,
          jar_path, separator⟩ := by
  push_neg at h
  obtain ⟨hen, hde, hfr⟩ := h
  refine ⟨?_, ?_, ?_, ?_⟩
  · unfold stanford_init
    rw [if_neg hen, if_neg hde, if_neg hfr]
  · unfold stanford_init
    rw [if_pos rfl]
  · unfold stanford_init
    rw [if_neg (by decide), if_pos rfl]
  · unfold stanford_init
    rw [if_neg (by decide), if_neg (by decide), if_pos rfl]

theorem stanford_init_language_check_witness :
    stanford_init "jar".data "models".data "|".data "kr".data =
        Except.error ("Language ".data ++ "kr".data ++ "not handled".data) ∧
      stanford_init "jar".data "models".data "|".data "en".data =
        Except.ok ⟨"models".data ++ "/".data ++ "english-left3words-distsim.tagger".data,
          "tokenizers/punkt/english.pickle".data, "EnglishStanfordPOSTagger".data,
          "jar".data, "|".data⟩ ∧
      stanford_init "jar".data "models".data "|".data "de".data =
        Except.ok ⟨"models".data ++ "/".data ++ "german-hgc.tagger".data,
          "tokenizers/punkt/german.pickle".data, "GermanStanfordPOSTagger".data,
          "jar".data, "|".data⟩ ∧
      stanford_init "jar".data "models".data "|".data "fr".data =
        Except.ok ⟨"models".data ++ "/".data ++ "french.tagger".data,
          "tokenizers/punkt/french.pickle".data, "FrenchStanfordPOSTagger".data,
          "jar".data, "|".data⟩ :=
  stanford_init_language_check "jar".data "models".data "|".data "kr".data (by decide)

/-- An element-wise computation that can only fail with `e` makes the whole
comprehension fail with `e` as soon as some element fails. -/
theorem exceptMapList_error {ε α β : Type} (g : α → Except ε β) (e : ε) :
    ∀ l : List α, (∃ x ∈ l, g x = Except.error e) →
      (∀ x ∈ l, g x = Except.error e ∨ ∃ y, g x = Except.ok y) →
      exceptMapList g l = Except.error e := by
  intro l
  induction l with
  | nil =>
    intro hex _
    obtain ⟨x, hx, _⟩ := hex
    cases hx
  | cons a as ih =>
    intro hex hall
    rcases hall a (List.mem_cons_self a as) with ha | ⟨y, hy⟩
    · unfold exceptMapList
      rw [ha]
    · unfold exceptMapList
      rw [hy]
      obtain ⟨x, hx, hxe⟩ := hex
      rcases List.mem_cons.mp hx with rfl | hx'
      · rw [hxe] at hy
        cases hy
      · rw [ih ⟨x, hx', hxe⟩ (fun z hz => hall z (List.mem_cons_of_mem a hz))]

/-- Looking up the attribute `seperator` on a `PosTaggingKonlpy` instance
fails: the constructor only sets `tagger`, `tag`, `lang`, `separator`. -/
theorem konlpyAttrs_no_seperator (taggerv tagv langv separatorv : List Char) :
    getattrStr (konlpyAttrs taggerv tagv langv separatorv) "seperator".data =
      Except.error "seperator".data := rfl

/-- C10 (counterexample): the claim fails on inputs that yield no sentences.
With external engines returning no sentences (as nltk `sent_tokenize` does on
the empty synthesized text), the flat branch of
`PosTaggingKonlpy.pos_tag_raw_text` never evaluates `self.seperator` — the
comprehension body never runs — and returns the empty joined string instead
of raising. -/
theorem konlpy_flat_empty_ok_cex :
    konlpy_pos_tag_raw_text_flat (fun _ => []) (fun _ => []) []
      (konlpyAttrs "Mecab".data [] "kr".data "|".data) [] = Except.ok [] := by rfl

/-- C10 (amended): whenever the tagged result contains at least one nonempty
sentence, the flat branch of `PosTaggingKonlpy.pos_tag_raw_text` evaluates
`self.seperator`, which no constructor ever sets (the constructor sets
`separator`), and fails with the attribute error before returning — the
configured separator is never used; only for inputs that yield no tokens at
all does the branch return (the trivially joined string) without error. -/
theorem konlpy_flat_attr_error (taggerv tagv langv separatorv : List Char)
    (tagged : List (List (List Char × List Char)))
    (h : ∃ sent ∈ tagged, sent ≠ []) :
    konlpy_flat (konlpyAttrs taggerv tagv langv separatorv) tagged =
      Except.error "seperator".data := by
  have herr := konlpyAttrs_no_seperator taggerv tagv langv separatorv
  have hinner : ∀ sent : List (List Char × List Char), sent ≠ [] →
      exceptMapList (fun t =>
          match getattrStr (konlpyAttrs taggerv tagv langv separatorv) "seperator".data with
          | Except.error e => Except.error e
          | Except.ok sep => Except.ok (tuple2str sep t)) sent =
        Except.error "seperator".data := by
    intro sent hne
    cases sent with
    | nil => exact absurd rfl hne
    | cons t ts =>
      refine exceptMapList_error _ _ _ ⟨t, List.mem_cons_self t ts, ?_⟩ ?_
      · rw [herr]
      · intro x _
        left
        rw [herr]
  have houter : exceptMapList (fun sent =>
      match exceptMapList (fun t =>
          match getattrStr (konlpyAttrs taggerv tagv langv separatorv) "seperator".data with
          | Except.error e => Except.error e
          | Except.ok sep => Except.ok (tuple2str sep t)) sent with
      | Except.error e => Except.error e
      | Except.ok toks => Except.ok (joinSep [' '] toks)) tagged =
        Except.error "seperator".data := by
    obtain ⟨sent, hsent, hne⟩ := h
    refine exceptMapList_error _ _ _ ⟨sent, hsent, ?_⟩ ?_
    · rw [hinner sent hne]
    · intro x _
      cases x with
      | nil => exact Or.inr ⟨joinSep [' '] [], rfl⟩
      | cons t ts =>
        left
        rw [hinner (t :: ts) (List.cons_ne_nil t ts)]
  unfold konlpy_flat
  rw [houter]

theorem konlpy_flat_attr_error_witness :
    konlpy_flat (konlpyAttrs "Mecab".data [] "kr".data "|".data)
      [[("x".data, "T".data)]] = Except.error "seperator".data :=
  konlpy_flat_attr_error "Mecab".data [] "kr".data "|".data
    [[("x".data, "T".data)]] ⟨[("x".data, "T".data)], by decide⟩

/-- C6 (counterexample): a `PosTaggingKonlpy` instance constructed with
separator `"_"` never renders any token with its configured separator: the
flat encoding reads the unset attribute `seperator` and fails instead of
producing output. -/
theorem konlpy_separator_not_used_cex :
    konlpy_flat (konlpyAttrs "Mecab".data [] "kr".data "_".data)
      [[("a".data, "N".data), ("b".data, "V".data)]] =
        Except.error "seperator".data := by rfl

/-- C6 (amended): only the Stanford backend renders tokens as
`text<SEP>tag` with the instance's configured separator; the spacy flat
encoding uses the hardcoded `'|'` whatever the configuration (the class has
no separator attribute), and the Konlpy flat encoding fails before using its
configured separator. -/
theorem separator_rendering (sep w1 t1 w2 t2 : List Char) :
    flattenDoc sep [[(w1, t1), (w2, t2)]] =
        (w1 ++ sep ++ t1) ++ " ".data ++ (w2 ++ sep ++ t2) ∧
      spacy_flat [[(w1, t1), (w2, t2)]] =
        (w1 ++ "|".data ++ t1) ++ " ".data ++ (w2 ++ "|".data ++ t2) := by
  exact ⟨rfl, rfl⟩

theorem isfile_write_ne (fs : List (List Char × List Char)) (n v p : List Char)
    (h : ¬ p = n) : isfile (write_string fs n v) p = isfile fs p := by
  have hne : ¬ n = p := fun he => h he.symm
  simp [isfile, write_string, hne]

theorem read_write_ne (fs : List (List Char × List Char)) (n v p : List Char)
    (h : ¬ p = n) : read_file (write_string fs n v) p = read_file fs p := by
  have hne : ¬ n = p := fun he => h he.symm
  unfold read_file write_string
  rw [List.find?_cons_of_neg _ (by simpa using hne)]

/-- The batch run only writes files named `q ++ suffix` for `q` among the
processed paths: any other name keeps its original lookup result. -/
theorem corpora_find_frame (tagFlat : List Char → List Char) (suffix : List Char)
    (ps : List (List Char)) (n : List Char) (h : ∀ q ∈ ps, ¬ n = q ++ suffix)
    (fs : List (List Char × List Char)) :
    (pos_tag_and_write_corpora tagFlat suffix ps fs).1.find? (fun e => decide (e.1 = n)) =
      fs.find? (fun e => decide (e.1 = n)) := by
  induction ps generalizing fs with
  | nil => rfl
  | cons p ps ih =>
    have hps : ∀ q ∈ ps, ¬ n = q ++ suffix := fun q hq => h q (List.mem_cons_of_mem p hq)
    by_cases hf : isfile fs p
    · rw [show pos_tag_and_write_corpora tagFlat suffix (p :: ps) fs =
          pos_tag_and_write_corpora tagFlat suffix ps
            (write_string fs (p ++ suffix) (tagFlat (read_file fs p))) from by
        simp [pos_tag_and_write_corpora, hf]]
      rw [ih hps]
      have hne : ¬ p ++ suffix = n := fun he => h p (List.mem_cons_self p ps) he.symm
      unfold write_string
      rw [List.find?_cons_of_neg _ (by simpa using hne)]
    · rw [show (pos_tag_and_write_corpora tagFlat suffix (p :: ps) fs).1 =
          (pos_tag_and_write_corpora tagFlat suffix ps fs).1 from by
        simp [pos_tag_and_write_corpora, hf]]
      exact ih hps fs

/-- C8: the corpus batch walks the path list in input order; every path
missing from the filesystem contributes exactly one warning (in order) and is
skipped, every existing path has its tagged content written to
`path ++ suffix`, and a missing path never prevents the processing of the
remaining paths.  The hypothesis rules out a path colliding with another
path's output name (in which case a write could change what a later
iteration sees). -/
theorem pos_tag_and_write_corpora_spec (tagFlat : List Char → List Char)
    (suffix : List Char) (paths : List (List Char)) (fs : List (List Char × List Char))
    (h : ∀ p ∈ paths, ∀ q ∈ paths, ¬ p = q ++ suffix) :
    (pos_tag_and_write_corpora tagFlat suffix paths fs).2 =
        (paths.filter (fun p => !isfile fs p)).map (fun p => warnMsg p suffix) ∧
      ∀ p ∈ paths, isfile fs p = true →
        (pos_tag_and_write_corpora tagFlat suffix paths fs).1.find?
            (fun e => decide (e.1 = p ++ suffix)) =
          some (p ++ suffix, tagFlat (read_file fs p)) := by
  induction paths generalizing fs with
  | nil => exact ⟨rfl, fun p hp => absurd hp (List.not_mem_nil p)⟩
  | cons p ps ih =>
    have hmem : ∀ x ∈ ps, x ∈ p :: ps := fun x hx => List.mem_cons_of_mem p hx
    have hps : ∀ a ∈ ps, ∀ q ∈ ps, ¬ a = q ++ suffix :=
      fun a ha q hq => h a (hmem a ha) q (hmem q hq)
    by_cases hf : isfile fs p
    · have hrun : pos_tag_and_write_corpora tagFlat suffix (p :: ps) fs =
          pos_tag_and_write_corpora tagFlat suffix ps
            (write_string fs (p ++ suffix) (tagFlat (read_file fs p))) := by
        simp [pos_tag_and_write_corpora, hf]
      have hfs' : ∀ x ∈ ps,
          isfile (write_string fs (p ++ suffix) (tagFlat (read_file fs p))) x = isfile fs x :=
        fun x hx => isfile_write_ne fs _ _ x (h x (hmem x hx) p (List.mem_cons_self p ps))
      obtain ⟨ihw, ihf⟩ := ih (write_string fs (p ++ suffix) (tagFlat (read_file fs p))) hps
      constructor
      · rw [hrun, ihw, List.filter_cons]
        rw [show (!isfile fs p) = false from by simp [hf]]
        simp only [Bool.false_eq_true, if_false]
        rw [List.filter_congr (fun x hx => by rw [hfs' x hx])]
      · intro x hx hxfile
        rcases List.mem_cons.mp hx with rfl | hx'
        · by_cases hxps : x ∈ ps
          · rw [hrun, ihf x hxps (by rw [hfs' x hxps]; exact hxfile),
              read_write_ne fs _ _ x (h x hx x hx)]
          · rw [hrun, corpora_find_frame tagFlat suffix ps (x ++ suffix)
              (fun q hq he => hxps (by rw [List.append_cancel_right he]; exact hq)) _]
            unfold write_string
            rw [List.find?_cons_of_pos _ (by simp)]
        · rw [hrun, ihf x hx' (by rw [hfs' x hx']; exact hxfile),
            read_write_ne fs _ _ x (h x hx p (List.mem_cons_self p ps))]
    · have hrun1 : (pos_tag_and_write_corpora tagFlat suffix (p :: ps) fs).1 =
          (pos_tag_and_write_corpora tagFlat suffix ps fs).1 := by
        simp [pos_tag_and_write_corpora, hf]
      have hrun2 : (pos_tag_and_write_corpora tagFlat suffix (p :: ps) fs).2 =
          warnMsg p suffix :: (pos_tag_and_write_corpora tagFlat suffix ps fs).2 := by
        simp [pos_tag_and_write_corpora, hf]
      obtain ⟨ihw, ihf⟩ := ih fs hps
      constructor
      · rw [hrun2, ihw, List.filter_cons]
        rw [show (!isfile fs p) = true from by simp [hf]]
        simp
      · intro x hx hxfile
        rcases List.mem_cons.mp hx with rfl | hx'
        · exact absurd hxfile (by simp [hf])
        · rw [hrun1]
          exact ihf x hx' hxfile

theorem pos_tag_and_write_corpora_spec_witness :
    (pos_tag_and_write_corpora (fun c => c) "_OUT".data
          ["exists.txt".data, "missing.txt".data]
          [("exists.txt".data, "hello".data)]).2 =
        ((["exists.txt".data, "missing.txt".data].filter
            (fun p => !isfile [("exists.txt".data, "hello".data)] p)).map
          (fun p => warnMsg p "_OUT".data)) ∧
      ∀ p ∈ ["exists.txt".data, "missing.txt".data],
        isfile [("exists.txt".data, "hello".data)] p = true →
        (pos_tag_and_write_corpora (fun c => c) "_OUT".data
              ["exists.txt".data, "missing.txt".data]
              [("exists.txt".data, "hello".data)]).1.find?
            (fun e => decide (e.1 = p ++ "_OUT".data)) =
          some (p ++ "_OUT".data, (fun c : List Char => c)
            (read_file [("exists.txt".data, "hello".data)] p)) :=
  pos_tag_and_write_corpora_spec (fun c => c) "_OUT".data
    ["exists.txt".data, "missing.txt".data] [("exists.txt".data, "hello".data)]
    (by decide)

theorem leadsWith_refl_append : ∀ sep r : List Char, leadsWith sep (sep ++ r) = true
  | [], _ => rfl
  | p :: ps, r => by
    have ih := leadsWith_refl_append ps r
    simp [leadsWith, ih]

theorem splitFirstSub_cons_pos (sep : List Char) (a : Char) (as : List Char)
    (h : leadsWith sep (a :: as) = true) :
    splitFirstSub sep (a :: as) = some ([], (a :: as).drop sep.length) := by
  unfold splitFirstSub
  rw [if_pos h]

theorem splitFirstSub_cons_neg (sep : List Char) (a : Char) (as : List Char)
    (h : leadsWith sep (a :: as) = false) :
    splitFirstSub sep (a :: as) = (splitFirstSub sep as).map (fun p => (a :: p.1, p.2)) := by
  unfold splitFirstSub
  rw [if_neg (by simp [h])]
  cases as <;> rfl

theorem splitFirstSub_none (c : Char) (sr : List Char) :
    ∀ s : List Char, c ∉ s → splitFirstSub (c :: sr) s = none := by
  intro s
  induction s with
  | nil => intro _; rfl
  | cons a as ih =>
    intro hmem
    have ha : ¬ c = a := fun he => hmem (List.mem_cons.mpr (Or.inl he))
    rw [splitFirstSub_cons_neg (c :: sr) a as (by simp [leadsWith, ha])]
    rw [ih (fun hc => hmem (List.mem_cons_of_mem a hc))]
    rfl

theorem splitFirstSub_append (c : Char) (sr : List Char) (post : List Char) :
    ∀ pre : List Char, c ∉ pre →
      splitFirstSub (c :: sr) (pre ++ (c :: sr) ++ post) = some (pre, post) := by
  intro pre
  induction pre with
  | nil =>
    intro _
    have hshape : ([] : List Char) ++ (c :: sr) ++ post = c :: (sr ++ post) := by simp
    rw [hshape]
    rw [splitFirstSub_cons_pos (c :: sr) c (sr ++ post)
      (by have := leadsWith_refl_append (c :: sr) post; simpa using this)]
    have h2 : (c :: (sr ++ post)).drop (c :: sr).length = post := by
      have hs : (c :: (sr ++ post) : List Char) = (c :: sr) ++ post := by simp
      rw [hs, List.drop_left]
    rw [h2]
  | cons a pre' ih =>
    intro hmem
    have ha : ¬ c = a := fun he => hmem (List.mem_cons.mpr (Or.inl he))
    have hshape : (a :: pre') ++ (c :: sr) ++ post = a :: (pre' ++ (c :: sr) ++ post) := by
      simp
    rw [hshape]
    rw [splitFirstSub_cons_neg (c :: sr) a (pre' ++ (c :: sr) ++ post)
      (by simp [leadsWith, ha])]
    rw [ih (fun hc => hmem (List.mem_cons_of_mem a hc))]
    rfl

theorem joinSep_length_ge (c : Char) (sr : List Char) :
    ∀ parts : List (List Char), parts.length ≤ (joinSep (c :: sr) parts).length + 1
  | [] => by simp [joinSep]
  | [p] => by simp [joinSep]
  | p :: q :: qs => by
    have ih := joinSep_length_ge c sr (q :: qs)
    rw [show joinSep (c :: sr) (p :: q :: qs) =
        p ++ (c :: sr) ++ joinSep (c :: sr) (q :: qs) from rfl]
    simp only [List.length_append, List.length_cons] at ih ⊢
    omega

theorem splitOnSubF_joinSep (c : Char) (sr : List Char) :
    ∀ (parts : List (List Char)) (fuel : Nat), parts ≠ [] →
      (∀ p ∈ parts, c ∉ p) → parts.length ≤ fuel →
      splitOnSubF (c :: sr) fuel (joinSep (c :: sr) parts) = parts := by
  intro parts
  induction parts with
  | nil => intro fuel h; exact absurd rfl h
  | cons p rest ih =>
    intro fuel _ hall hfuel
    cases rest with
    | nil =>
      cases fuel with
      | zero => simp at hfuel
      | succ f =>
        rw [show joinSep (c :: sr) [p] = p from rfl]
        unfold splitOnSubF
        rw [splitFirstSub_none c sr p (hall p (List.mem_cons_self p []))]
    | cons q qs =>
      cases fuel with
      | zero => simp at hfuel
      | succ f =>
        rw [show joinSep (c :: sr) (p :: q :: qs) =
            p ++ (c :: sr) ++ joinSep (c :: sr) (q :: qs) from rfl]
        unfold splitOnSubF
        rw [splitFirstSub_append c sr (joinSep (c :: sr) (q :: qs)) p
          (hall p (List.mem_cons_self p (q :: qs)))]
        show p :: splitOnSubF (c :: sr) f (joinSep (c :: sr) (q :: qs)) = p :: q :: qs
        rw [ih f (List.cons_ne_nil q qs)
          (fun x hx => hall x (List.mem_cons_of_mem p hx))
          (by simp only [List.length_cons] at hfuel ⊢; omega)]

theorem splitOnSub_joinSep (c : Char) (sr : List Char) (parts : List (List Char))
    (hne : parts ≠ []) (hall : ∀ p ∈ parts, c ∉ p) :
    splitOnSub (c :: sr) (joinSep (c :: sr) parts) = parts := by
  unfold splitOnSub
  refine splitOnSubF_joinSep c sr parts _ hne hall ?_
  have := joinSep_length_ge c sr parts
  omega

theorem parseToken_tuple2str (c : Char) (sr : List Char) (tk : List Char × List Char)
    (hw : c ∉ tk.1) : parseToken (c :: sr) (tuple2str (c :: sr) tk) = tk := by
  unfold parseToken tuple2str
  rw [splitFirstSub_append c sr tk.2 tk.1 hw]

theorem mem_joinSep (sep : List Char) :
    ∀ (parts : List (List Char)) (x : Char), x ∈ joinSep sep parts →
      x ∈ sep ∨ ∃ p ∈ parts, x ∈ p
  | [] => by intro x hx; cases hx
  | [p] => by
    intro x hx
    exact Or.inr ⟨p, List.mem_cons_self p [], hx⟩
  | p :: q :: qs => by
    intro x hx
    rw [show joinSep sep (p :: q :: qs) = p ++ sep ++ joinSep sep (q :: qs) from rfl] at hx
    rcases List.mem_append.mp hx with h1 | h4
    · rcases List.mem_append.mp h1 with h2 | h3
      · exact Or.inr ⟨p, List.mem_cons_self p (q :: qs), h2⟩
      · exact Or.inl h3
    · rcases mem_joinSep sep (q :: qs) x h4 with h5 | ⟨r, hr, hxr⟩
      · exact Or.inl h5
      · exact Or.inr ⟨r, List.mem_cons_of_mem p hr, hxr⟩

/-- C5 (counterexample): the round trip fails for a `TaggedDocument` whose
token text contains a space.  `[[("a b", "N")]]` flattens to `"a b|N"`, and
re-splitting that flat string on the sentinel and the separator yields two
tokens, not the original single token. -/
theorem flatten_parse_cex :
    parseFlat "|".data (flattenDoc "|".data [[("a b".data, "N".data)]]) ≠
      [[("a b".data, "N".data)]] := by decide

/-- C5 (amended): flatten-then-parse reproduces the Token sequence exactly
for every well-formed `TaggedDocument`: a nonempty document of nonempty
sentences whose token texts and tags do not contain the space character, the
sentinel's opening character `'['`, or the separator's first character (and
with a separator free of `'['` and space).  Without these restrictions the
encoding is ambiguous and the round trip fails (see the counterexample). -/
theorem flatten_parse_roundtrip (s0 : Char) (sr : List Char)
    (doc : List (List (List Char × List Char)))
    (hdoc : doc ≠ [])
    (hsent : ∀ sent ∈ doc, sent ≠ [])
    (hsep : '[' ∉ s0 :: sr ∧ ' ' ∉ s0 :: sr)
    (hfields : ∀ sent ∈ doc, ∀ tk ∈ sent,
      '[' ∉ tk.1 ∧ '[' ∉ tk.2 ∧ ' ' ∉ tk.1 ∧ ' ' ∉ tk.2 ∧ s0 ∉ tk.1 ∧ s0 ∉ tk.2) :
    parseFlat (s0 :: sr) (flattenDoc (s0 :: sr) doc) = doc := by
  obtain ⟨hsepb, hseps⟩ := hsep
  have hrender : ∀ sent ∈ doc, ∀ tk ∈ sent, ∀ x : Char,
      x ∈ tuple2str (s0 :: sr) tk → x ∈ tk.1 ∨ x ∈ (s0 :: sr) ∨ x ∈ tk.2 := by
    intro sent _ tk _ x hx
    unfold tuple2str at hx
    rcases List.mem_append.mp hx with h1 | h2
    · rcases List.mem_append.mp h1 with h3 | h4
      · exact Or.inl h3
      · exact Or.inr (Or.inl h4)
    · exact Or.inr (Or.inr h2)
  have hsentflat : ∀ part ∈ doc.map
      (fun sent => joinSep [' '] (sent.map (tuple2str (s0 :: sr)))), '[' ∉ part := by
    intro part hpart hmem
    obtain ⟨sent, hsentmem, rfl⟩ := List.mem_map.mp hpart
    rcases mem_joinSep [' '] (sent.map (tuple2str (s0 :: sr))) '[' hmem with
      hsp | ⟨r, hr, hxr⟩
    · simp at hsp
    · obtain ⟨tk, htk, rfl⟩ := List.mem_map.mp hr
      rcases hrender sent hsentmem tk htk '[' hxr with h | h | h
      · exact (hfields sent hsentmem tk htk).1 h
      · exact hsepb h
      · exact (hfields sent hsentmem tk htk).2.1 h
  unfold parseFlat flattenDoc
  rw [show ("[ENDSENT]".data : List Char) = '[' :: "ENDSENT]".data from rfl]
  rw [splitOnSub_joinSep '[' "ENDSENT]".data
    (doc.map (fun sent => joinSep [' '] (sent.map (tuple2str (s0 :: sr)))))
    (by simpa using hdoc) hsentflat]
  rw [List.map_map]
  have hpoint : ∀ sent ∈ doc,
      ((fun sent => (splitOnSub [' '] sent).map (parseToken (s0 :: sr))) ∘
        (fun sent => joinSep [' '] (sent.map (tuple2str (s0 :: sr))))) sent = id sent := by
    intro sent hsentmem
    simp only [Function.comp_apply, id_eq]
    have hspace : ∀ r ∈ sent.map (tuple2str (s0 :: sr)), ' ' ∉ r := by
      intro r hr hmem
      obtain ⟨tk, htk, rfl⟩ := List.mem_map.mp hr
      rcases hrender sent hsentmem tk htk ' ' hmem with h | h | h
      · exact (hfields sent hsentmem tk htk).2.2.1 h
      · exact hseps h
      · exact (hfields sent hsentmem tk htk).2.2.2.1 h
    rw [splitOnSub_joinSep ' ' [] (sent.map (tuple2str (s0 :: sr)))
      (by simpa using hsent sent hsentmem) hspace]
    rw [List.map_map]
    have htok : ∀ tk ∈ sent,
        (parseToken (s0 :: sr) ∘ tuple2str (s0 :: sr)) tk = id tk := by
      intro tk htk
      simp only [Function.comp_apply, id_eq]
      exact parseToken_tuple2str s0 sr tk (hfields sent hsentmem tk htk).2.2.2.2.1
    rw [List.map_congr_left htok, List.map_id]
  rw [List.map_congr_left hpoint, List.map_id]

theorem flatten_parse_roundtrip_witness :
    parseFlat ('|' :: []) (flattenDoc ('|' :: [])
        [[("ab".data, "N".data), ("cd".data, "V".data)], [("e".data, "N".data)]]) =
      [[("ab".data, "N".data), ("cd".data, "V".data)], [("e".data, "N".data)]] :=
  flatten_parse_roundtrip '|' []
    [[("ab".data, "N".data), ("cd".data, "V".data)], [("e".data, "N".data)]]
    (by decide) (by decide) (by decide) (by decide)
